import Mathlib

/-!
Verification of the fqdn-service core (TypeScript sources: dnsfeedsrv.ts,
localstore.ts, dydbif.ts, utils.ts and their repository variants).

The TypeScript code is shallowly embedded: JavaScript objects used as
dictionaries become association lists (first matching key wins, assignment
replaces the first matching entry or appends, which preserves JS key
enumeration order), epoch-second timestamps and TTLs become `Int`, and the
stateful methods of `storage` / `fqdnService` become pure functions that
thread the state explicitly.  Promise chains are modelled by sequential
composition; `Except` models promise rejection where a claim is about error
propagation.
-/

/-- Association-list lookup, modelling `dict[key]` / `key in dict` on a
JavaScript object (the object has unique keys; first match wins). -/
def alookup {α β : Type} [DecidableEq α] (a : α) : List (α × β) → Option β
  | [] => none
  | (k, v) :: t => if k = a then some v else alookup a t

/-- Association-list assignment, modelling `dict[key] = v` on a JavaScript
object: replace the value of an existing key in place, otherwise append the
new key (JS insertion-order enumeration). -/
def aset {α β : Type} [DecidableEq α] : List (α × β) → α → β → List (α × β)
  | [], a, v => [(a, v)]
  | (k, w) :: t, a, v => if k = a then (k, v) :: t else (k, w) :: aset t a v

theorem alookup_aset_self {α β : Type} [DecidableEq α] (l : List (α × β)) (a : α) (b : β) :
    alookup a (aset l a b) = some b := by
  induction l with
  | nil => simp [aset, alookup]
  | cons p t ih =>
      obtain ⟨k, w⟩ := p
      by_cases h : k = a
      · simp [aset, alookup, h]
      · simp [aset, alookup, h, ih]

theorem alookup_eq_none_of_forall {α β : Type} [DecidableEq α]
    (a : α) (l : List (α × β)) (h : ∀ p ∈ l, p.1 ≠ a) : alookup a l = none := by
  induction l with
  | nil => rfl
  | cons p t ih =>
      obtain ⟨k, w⟩ := p
      have hk : k ≠ a := h (k, w) (by simp)
      simp only [alookup, if_neg hk]
      exact ih (fun q hq => h q (by simp [hq]))

theorem alookup_append_of_forall {α β : Type} [DecidableEq α]
    (a : α) (l1 l2 : List (α × β)) (h : ∀ p ∈ l2, p.1 ≠ a) :
    alookup a (l1 ++ l2) = alookup a l1 := by
  induction l1 with
  | nil => simpa [alookup] using alookup_eq_none_of_forall a l2 h
  | cons p t ih =>
      obtain ⟨k, w⟩ := p
      by_cases hk : k = a
      · simp [alookup, hk]
      · simp [alookup, hk, ih]

theorem mem_of_alookup {α β : Type} [DecidableEq α]
    (a : α) (b : β) (l : List (α × β)) (h : alookup a l = some b) : (a, b) ∈ l := by
  induction l with
  | nil => simp [alookup] at h
  | cons p t ih =>
      obtain ⟨k, w⟩ := p
      by_cases hk : k = a
      · subst hk
        simp [alookup] at h
        simp [h]
      · simp only [alookup, if_neg hk] at h
        simp [ih h]

/-- Per-family address dictionary of the local store
(`utils.addrValidUntil`): address string mapped to the absolute
epoch-second `validUntil`. -/
abbrev Ledger := List (String × Int)

/-- Embedding of `storage.validEntries` (localstore.ts):
`Object.entries(dict).filter(item => item[1] > currentTime - span).map(item => item[0])`.
It reads the dictionary and returns a list of addresses; it performs no
mutation (the returned state is just the input `dict`, untouched). -/
def validEntries (dict : Ledger) (span now : Int) : List String :=
  (dict.filter (fun it => decide (now - span < it.2))).map (fun it => it.1)

/-- Embedding of `storage.ttlUpdated` (localstore.ts):
`if (!(address in dict) || currentTime - span > dict[address]) { dict[address] = validUntil; return true } return false`.
Returns the boolean result together with the (possibly mutated) dictionary. -/
def ttlUpdated (item : String × Int) (dict : Ledger) (span now : Int) : Bool × Ledger :=
  match alookup item.1 dict with
  | none => (true, aset dict item.1 item.2)
  | some v => if now - span > v then (true, aset dict item.1 item.2) else (false, dict)

theorem validEntries_keys (dict : Ledger) (span now : Int) (a : String)
    (h : a ∈ validEntries dict span now) : ∃ v, (a, v) ∈ dict := by
  simp only [validEntries, List.mem_map, List.mem_filter] at h
  obtain ⟨⟨k, v⟩, ⟨hm, _⟩, rfl⟩ := h
  exact ⟨v, hm⟩

/-- Claim C1: `validEntries` (the spec's `selectValid`) returns exactly the
addresses of the ledger whose stored `validUntil` is strictly greater than
`now - span`; the boundary `validUntil = now - span` is excluded (strict
inequality), and the ledger is not mutated (the embedding returns only the
address list and leaves `dict` untouched). -/
theorem validEntries_spec (dict : Ledger) (span now : Int) (a : String)
    (hnd : (dict.map Prod.fst).Nodup) :
    a ∈ validEntries dict span now ↔ ∃ v, alookup a dict = some v ∧ now - span < v := by
  induction dict with
  | nil => simp [validEntries, alookup]
  | cons p t ih =>
      obtain ⟨k, w⟩ := p
      simp only [List.map_cons, List.nodup_cons] at hnd
      obtain ⟨hknott, hndt⟩ := hnd
      by_cases hk : k = a
      · subst hk
        constructor
        · intro hmem
          by_cases hw : now - span < w
          · exact ⟨w, by simp [alookup], hw⟩
          · exfalso
            simp only [validEntries, List.filter_cons, decide_eq_true_eq] at hmem
            rw [if_neg hw] at hmem
            obtain ⟨v, hv⟩ := validEntries_keys t span now k hmem
            exact hknott (List.mem_map.mpr ⟨(k, v), hv, rfl⟩)
        · rintro ⟨v, hv, hlt⟩
          simp [alookup] at hv
          subst hv
          simp [validEntries, List.filter_cons, hlt]
      · simp only [validEntries, List.filter_cons, decide_eq_true_eq]
        by_cases hw : now - span < w
        · rw [if_pos hw]
          simp only [List.map_cons, List.mem_cons]
          rw [alookup]
          rw [if_neg hk]
          constructor
          · rintro (h | h)
            · exact absurd h.symm hk
            · exact (ih hndt).mp (by simpa [validEntries] using h)
          · intro h
            exact Or.inr (by simpa [validEntries] using (ih hndt).mpr h)
        · rw [if_neg hw]
          rw [alookup]
          rw [if_neg hk]
          simpa [validEntries] using ih hndt

/-- Concrete instantiation of `validEntries_spec`: ledger with entries at
validUntil 100 and 50, span 30, now 80; the window bound is 50, so "a"
(100 > 50) is selected and "b" (50 = 50, boundary) is excluded. -/
theorem validEntries_spec_witness :
    ("a" ∈ validEntries [("a", 100), ("b", 50)] 30 80 ↔
      ∃ v, alookup "a" [("a", (100 : Int)), ("b", 50)] = some v ∧ 80 - 30 < v) ∧
    ("b" ∈ validEntries [("a", 100), ("b", 50)] 30 80 ↔
      ∃ v, alookup "b" [("a", (100 : Int)), ("b", 50)] = some v ∧ 80 - 30 < v) :=
  ⟨validEntries_spec [("a", 100), ("b", 50)] 30 80 "a" (by decide),
   validEntries_spec [("a", 100), ("b", 50)] 30 80 "b" (by decide)⟩

/-- Claim C2: `ttlUpdated` (the spec's `isUpdateWorthy`) returns `true` and
sets `dict[address] = observedValidUntil` exactly when the address is absent
from the dictionary or its previously stored `validUntil` is strictly less
than `now - span`; in every other case it returns `false` and leaves the
dictionary completely unchanged. -/
theorem ttlUpdated_spec (a : String) (vu span now : Int) (dict : Ledger) :
    ((alookup a dict = none ∨ ∃ v, alookup a dict = some v ∧ v < now - span) →
      ttlUpdated (a, vu) dict span now = (true, aset dict a vu)) ∧
    ((∃ v, alookup a dict = some v ∧ now - span ≤ v) →
      ttlUpdated (a, vu) dict span now = (false, dict)) := by
  constructor
  · rintro (h | ⟨v, hv, hlt⟩)
    · simp [ttlUpdated, h]
    · simp [ttlUpdated, hv, hlt]
  · rintro ⟨v, hv, hle⟩
    simp [ttlUpdated, hv, not_lt.mpr hle]

/-- Concrete instantiation of `ttlUpdated_spec`: a fresh address is
update-worthy and written; a stored address still inside the window is not
update-worthy and the dictionary is untouched. -/
theorem ttlUpdated_spec_witness :
    ttlUpdated ("x", 160) [] 30 100 = (true, [("x", 160)]) ∧
    ttlUpdated ("x", 160) [("x", 90)] 30 100 = (false, [("x", 90)]) :=
  ⟨(ttlUpdated_spec "x" 160 30 100 []).1 (Or.inl rfl),
   (ttlUpdated_spec "x" 160 30 100 [("x", 90)]).2 ⟨90, rfl, by decide⟩⟩

/-- Default DNS TTL (dnsfeedsrv.ts `DEFAULT_TTL = 60`). -/
def DEFAULT_TTL : Int := 60

/-- Embedding of the per-record TTL normalisation in `fqdnService.resolveDns`:
`let ttl = Number(addr[i].ttl); if (isNaN(ttl) || ttl == 0) ttl = DEFAULT_TTL`.
A record whose ttl is absent or non-numeric coerces to NaN and is modelled as
`none`; a numeric ttl is `some v`. -/
def resolvedTtl (t : Option Int) : Int :=
  match t with
  | none => DEFAULT_TTL
  | some v => if v = 0 then DEFAULT_TTL else v

/-- Embedding of the loop in `fqdnService.resolveDns` that fills
`localEntries[fqdn].ipv4` (resp. `.ipv6`): for each resolved record
`localEntries[fqdn].ipv4[address] = currentTime + ttl` in result order
(later duplicates overwrite earlier ones, as JS object assignment does). -/
def buildLocal (now : Int) (recs : List (String × Option Int)) : Ledger :=
  recs.foldl (fun d r => aset d r.1 (now + resolvedTtl r.2)) []

/-- Claim C8: a resolved record whose ttl is absent/non-numeric (`none`) or
zero is entered into the local ledger with `validUntil = now + 60` (the
default TTL); a record with a numeric non-zero ttl is entered with
`validUntil = now + ttl`.  The record is the last occurrence of its address
in the resolver output, matching the JS overwrite semantics. -/
theorem resolved_ttl_default (now : Int) (recs : List (String × Option Int))
    (a : String) (t : Option Int) :
    alookup a (buildLocal now (recs ++ [(a, t)])) =
      some (now + match t with
                  | none => 60
                  | some v => if v = 0 then 60 else v) := by
  have h : buildLocal now (recs ++ [(a, t)]) =
      aset (buildLocal now recs) a (now + resolvedTtl t) := by
    simp [buildLocal, List.foldl_append]
  rw [h, alookup_aset_self]
  cases t with
  | none => rfl
  | some v => rfl

/-- Ledger pair for one FQDN (localstore.ts `addrGroup`). -/
structure FqdnEntry where
  ipv4 : Ledger
  ipv6 : Ledger
deriving DecidableEq

/-- External collaborators of one resolution (dnsfeedsrv.ts):
`res4`/`res6` are `dns.resolve4/resolve6` (a resolution error is equivalent
to an empty record list: in both cases `localEntries` stays empty and no
item passes the update filter), and `db` is `dydbif.safeGetById`, which
always resolves (it returns `{ipv4: {}, ipv6: {}}` on a read error or a
missing key). -/
structure ResolveEnv where
  res4 : String → List (String × Option Int)
  res6 : String → List (String × Option Int)
  db : String → FqdnEntry

/-- The `Response` interface of dnsfeedsrv.ts: each family key is present
only when at least one address qualifies. -/
structure Response where
  ipv4 : Option (List String)
  ipv6 : Option (List String)
deriving DecidableEq

/-- Mutable state threaded through one resolution pass: the process-wide
`storage.localDict`, the service's `responseBuffer` (optional keys, as in
the `Response` interface), and the log of `dydbif.putItem` calls issued to
the backing store. -/
structure SvcState where
  store : List (String × FqdnEntry)
  buf4 : Option (List String)
  buf6 : Option (List String)
  writes : List (String × Ledger × Ledger)

/-- Embedding of `fqdnService.refreshFqdnFromDb`: if the local store has no
entry for the FQDN, fetch it from the backing store via `safeGetById` and
install it with `setFqdn`; otherwise do nothing.  (The at-most-once aspect
of this check across concurrent leaves is modelled separately by
`concurrentLeaves` / `sequentialCalls` below.) -/
def refreshFqdnFromDb (env : ResolveEnv) (f : String) (st : SvcState) : SvcState :=
  match alookup f st.store with
  | none => { st with store := aset st.store f (env.db f) }
  | some _ => st

/-- Embedding of
`Object.entries(localEntries[fqdn].ipv4).filter(item => storage.ttlUpdated4(fqdn, item, span, now))`:
`Array.filter` evaluates the predicate left to right and `ttlUpdated`
mutates the dictionary as a side effect, so the dictionary is threaded
through the traversal.  Returns the kept items and the final dictionary. -/
def filterUpdated (es : List (String × Int)) (dict : Ledger) (span now : Int) :
    List (String × Int) × Ledger :=
  match es with
  | [] => ([], dict)
  | e :: t =>
      let r := ttlUpdated e dict span now
      let rest := filterUpdated t r.2 span now
      (if r.1 then e :: rest.1 else rest.1, rest.2)

/-- One FQDN's merge step (dnsfeedsrv.ts `resolveDns` before the write
decision), starting from the already refreshed store: build
`localEntries[fqdn]` for both families, run the update filter against the
stored ledgers, and return `(ipv4Updated, ipv6Updated, final ledger pair)`. -/
def mergeFqdn (env : ResolveEnv) (f : String) (span now : Int) (st1 : SvcState) :
    List (String × Int) × List (String × Int) × FqdnEntry :=
  let entry := (alookup f st1.store).getD ⟨[], []⟩
  let r4 := filterUpdated (buildLocal now (env.res4 f)) entry.ipv4 span now
  let r6 := filterUpdated (buildLocal now (env.res6 f)) entry.ipv6 span now
  (r4.1, r6.1, ⟨r4.2, r6.2⟩)

/-- Value of `ipv4Updated.length + ipv6Updated.length` for one resolution. -/
def updCount (env : ResolveEnv) (f : String) (span now : Int) (st : SvcState) : Nat :=
  let m := mergeFqdn env f span now (refreshFqdnFromDb env f st)
  m.1.length + m.2.1.length

/-- The FQDN's ledger pair held by the local store after the merge step;
this is what `storage.get4/get6` return when `putItem` is built. -/
def postEntry (env : ResolveEnv) (f : String) (span now : Int) (st : SvcState) : FqdnEntry :=
  (mergeFqdn env f span now (refreshFqdnFromDb env f st)).2.2

/-- Embedding of `fqdnService.resolveDns` (dnsfeedsrv.ts): refresh the local
store from the backing store if needed, merge both families's resolver
records into the stored ledgers via the update filter, issue
`putItem({id, ipv4: get4(fqdn), ipv6: get6(fqdn)})` exactly when
`ipv4Updated.length + ipv6Updated.length > 0`, then build the `Response`
from `validEntries4/6` and append the nonempty families to the response
buffer (`buffer.ipv4 ? buffer.ipv4.concat(entries) : entries`).  The
sequential in-place mutations of the JS method are presented as one record
update; every field value matches the state the JS object holds when the
promise of `resolveDns` resolves. -/
def resolveDns (env : ResolveEnv) (f : String) (span now : Int) (st : SvcState) :
    Response × SvcState :=
  let st1 := refreshFqdnFromDb env f st
  let ent := postEntry env f span now st
  let e4 := validEntries ent.ipv4 span now
  let e6 := validEntries ent.ipv6 span now
  (⟨if 0 < e4.length then some e4 else none,
    if 0 < e6.length then some e6 else none⟩,
   { store := aset st1.store f ent,
     buf4 := if 0 < e4.length then some (st.buf4.getD [] ++ e4) else st.buf4,
     buf6 := if 0 < e6.length then some (st.buf6.getD [] ++ e6) else st.buf6,
     writes := st.writes ++
       (if 0 < updCount env f span now st then [(f, ent.ipv4, ent.ipv6)] else []) })

/-- Claim C5: the backing-store write is performed if and only if
`ipv4Updated.length + ipv6Updated.length > 0`, and when it is performed the
item written is the entire current ledger pair of the FQDN (the full post-
merge `ipv4` and `ipv6` dictionaries held by the local store, not just the
update-worthy delta). -/
theorem putItem_write_iff (env : ResolveEnv) (f : String) (span now : Int) (st : SvcState) :
    ((resolveDns env f span now st).2.writes ≠ st.writes ↔
      0 < updCount env f span now st) ∧
    (resolveDns env f span now st).2.writes =
      st.writes ++
        (if 0 < updCount env f span now st then
          [(f, (postEntry env f span now st).ipv4, (postEntry env f span now st).ipv6)]
         else []) ∧
    alookup f (resolveDns env f span now st).2.store = some (postEntry env f span now st) := by
  refine ⟨?_, rfl, alookup_aset_self _ _ _⟩
  by_cases h : 0 < updCount env f span now st
  · simp [resolveDns, h]
  · simp [resolveDns, h]

/-- Embedding of the write step of `fqdnService.resolveDns` in
src/dnsfeedsrv.ts, where the `putItem` promise is returned into the chain
(`return this.dbClient.putItem({...})` inside
`Promise.all(resolvers).then(...)`): a rejected write rejects the whole
`resolveDns` promise before the response is built, so the caller observes
`Except.error`.  `putItem` abstracts the backing-store write outcome. -/
def resolveDnsChained (env : ResolveEnv)
    (putItem : String × Ledger × Ledger → Except String Unit)
    (f : String) (span now : Int) (st : SvcState) :
    Except String (Response × SvcState) :=
  if 0 < updCount env f span now st then
    match putItem (f, (postEntry env f span now st).ipv4, (postEntry env f span now st).ipv6) with
    | Except.error e => Except.error e
    | Except.ok _ => Except.ok (resolveDns env f span now st)
  else Except.ok (resolveDns env f span now st)

/-- Embedding of the write step of the async `fqdnService.resolveDns`
variant (unnamed part_001, lines 218-223): `this.dbClient.putItem({...})`
is invoked without `await` and without `return`, so its promise floats.
The first component is what the caller of `resolveDns` observes (always a
successful resolution); the second component is the outcome of the orphaned
write, which joins no promise chain. -/
def resolveDnsFloating (env : ResolveEnv)
    (putItem : String × Ledger × Ledger → Except String Unit)
    (f : String) (span now : Int) (st : SvcState) :
    Except String (Response × SvcState) × Option (Except String Unit) :=
  (Except.ok (resolveDns env f span now st),
   if 0 < updCount env f span now st then
     some (putItem (f, (postEntry env f span now st).ipv4, (postEntry env f span now st).ipv6))
   else none)

/-- Example collaborators for the write-failure scenario: IPv4 resolves to
one fresh address, IPv6 to none, the backing store has no prior entry, and
the initial process state is empty. -/
def envEx : ResolveEnv :=
  ⟨fun _ => [("10.0.0.1", some 300)], fun _ => [], fun _ => ⟨[], []⟩⟩

/-- Empty initial service state. -/
def stEx : SvcState := ⟨[], none, none, []⟩

/-- Claim C3 (code bug in the part_001 variant): at an input where the
backing-store write of step 4 is attempted (one update-worthy address) and
the write fails, the chained implementation (src/dnsfeedsrv.ts) rejects the
resolution with the write error, but the async part_001 variant resolves
successfully: the rejection of the floating `putItem` promise never reaches
the caller, contradicting the claim and the spec's "must propagate, not
silently swallowed". -/
theorem write_failure_not_propagated_part001 :
    updCount envEx "www.example.com" 86400 1000 stEx = 1 ∧
    resolveDnsChained envEx (fun _ => Except.error "boom") "www.example.com" 86400 1000 stEx =
      Except.error "boom" ∧
    (resolveDnsFloating envEx (fun _ => Except.error "boom") "www.example.com" 86400 1000 stEx).1 =
      Except.ok (resolveDns envEx "www.example.com" 86400 1000 stEx) ∧
    (resolveDnsFloating envEx (fun _ => Except.error "boom") "www.example.com" 86400 1000 stEx).2 =
      some (Except.error "boom") := by
  refine ⟨rfl, ?_, rfl, ?_⟩
  · rfl
  · rfl

/-- Number of occurrences of a string in a list (used to count duplicate
backing-store reads and duplicate buffer entries). -/
def countOcc (a : String) : List String → Nat
  | [] => 0
  | b :: t => (if b = a then 1 else 0) + countOcc a t

theorem countOcc_append (a : String) (l1 l2 : List String) :
    countOcc a (l1 ++ l2) = countOcc a l1 + countOcc a l2 := by
  induction l1 with
  | nil => simp [countOcc]
  | cons b t ih => simp [countOcc, ih]; omega

theorem one_le_countOcc_of_mem (a : String) (l : List String) (h : a ∈ l) :
    1 ≤ countOcc a l := by
  induction l with
  | nil => simp at h
  | cons b t ih =>
      rcases List.mem_cons.mp h with h | h
      · simp [countOcc, h.symm]
      · have := ih h
        by_cases hb : b = a
        · simp [countOcc, hb]
        · simp [countOcc, hb]
          omega

/-- State of the single-fetch bookkeeping: which FQDNs the process-wide
`storage.localDict` already holds (`hasFqdn`), and the log of
`dydbif.safeGetById` calls issued so far. -/
structure FetchLog where
  cache : List String
  reads : List String

/-- Synchronous prefix of `fqdnService.refreshFqdnFromDb`: the
`extStore.hasFqdn(fqdn)` check and, on a miss, the `safeGetById(fqdn)` call
(the DynamoDB request is issued synchronously inside the promise
executor).  Returns whether a fetch was issued. -/
def fetchCheckIssue (f : String) (st : FetchLog) : Bool × FetchLog :=
  if f ∈ st.cache then (false, st)
  else (true, { st with reads := st.reads ++ [f] })

/-- Continuation of `refreshFqdnFromDb`: the `.then(item =>
extStore.setFqdn(fqdn, ...))` callback that runs once the backing-store
read completes. -/
def fetchComplete (f : String) (st : FetchLog) : FetchLog :=
  { st with cache := f :: st.cache }

/-- Runs the check phases of a list of Request leaves, returning the state
and the leaves that issued a fetch. -/
def runChecks : List String → FetchLog → FetchLog × List String
  | [], st => (st, [])
  | f :: t, st =>
      let c := fetchCheckIssue f st
      let r := runChecks t c.2
      (r.1, (if c.1 then [f] else []) ++ r.2)

/-- Same-level Request leaves resolved concurrently in one tree
(`drillDown` pushes every sibling promise in one synchronous loop): on the
JS event loop, every leaf's `hasFqdn` check and `safeGetById` issue run
synchronously before any read's `.then` continuation can run, so all check
phases precede all completions. -/
def concurrentLeaves (leaves : List String) (st : FetchLog) : FetchLog :=
  let r := runChecks leaves st
  r.2.foldl (fun s f => fetchComplete f s) r.1

/-- Sequential resolution calls: each call's read (if issued) completes
before the next call starts. -/
def sequentialCalls : List String → FetchLog → FetchLog
  | [], st => st
  | f :: t, st =>
      let c := fetchCheckIssue f st
      sequentialCalls t (if c.1 then fetchComplete f c.2 else c.2)

/-- Claim C4 counterexample: the same FQDN appearing in two Request leaves
resolved concurrently in one tree triggers TWO `safeGetById` reads — both
leaves run the `hasFqdn` check before either read completes and installs
the entry — so the backing-store read is not executed at most once per FQDN
for the lifetime of the process. -/
theorem concurrent_leaves_double_fetch :
    ¬ (countOcc "www.example.com"
        (concurrentLeaves ["www.example.com", "www.example.com"] ⟨[], []⟩).reads ≤ 1) := by
  decide

/-- Claim C4 (amended): the backing-store read happens at most once per
FQDN per process lifetime for resolutions whose read phases do not overlap:
over any sequence of sequential calls started from process start (empty
cache, no reads yet), at most one `safeGetById` is issued per FQDN. -/
theorem sequential_fetch_at_most_once (calls : List String) (f : String) :
    countOcc f (sequentialCalls calls ⟨[], []⟩).reads ≤ 1 := by
  suffices h : ∀ (cs : List String) (st : FetchLog),
      countOcc f (sequentialCalls cs st).reads ≤
        countOcc f st.reads + (if f ∈ st.cache then 0 else 1) by
    simpa [countOcc] using h calls ⟨[], []⟩
  intro cs
  induction cs with
  | nil =>
      intro st
      by_cases hm : f ∈ st.cache <;> simp [sequentialCalls, hm]
  | cons g t ih =>
      intro st
      by_cases hg : g ∈ st.cache
      · have hstep : sequentialCalls (g :: t) st = sequentialCalls t st := by
          simp [sequentialCalls, fetchCheckIssue, hg]
        rw [hstep]
        exact ih st
      · have hstep : sequentialCalls (g :: t) st =
            sequentialCalls t ⟨g :: st.cache, st.reads ++ [g]⟩ := by
          simp [sequentialCalls, fetchCheckIssue, fetchComplete, hg]
        rw [hstep]
        have h2 := ih ⟨g :: st.cache, st.reads ++ [g]⟩
        simp only [countOcc_append, List.mem_cons] at h2
        by_cases hgf : g = f
        · subst hgf
          have hone : countOcc g [g] = 1 := by simp [countOcc]
          rw [hone] at h2
          simp only [true_or, if_pos] at h2
          simp only [hg, if_neg, ite_false]
          omega
        · have hzero : countOcc f [g] = 0 := by simp [countOcc, hgf]
          rw [hzero] at h2
          have hiff : (f = g ∨ f ∈ st.cache) ↔ f ∈ st.cache := by
            constructor
            · rintro (h | h)
              · exact absurd h.symm hgf
              · exact h
            · exact Or.inr
          rw [if_congr hiff rfl rfl] at h2
          omega

/-!
JSON-like configuration values: the ConfigDocument trees walked by
`fqdnService.drillDown`.  Arrays are modelled as objects keyed by index,
matching both the spec's rule and the `for (let k in arg)` traversal, and
numbers are modelled as integers.
-/

mutual
/-- A JSON value (null, boolean, number, string, or object). -/
inductive JVal where
  | jnull : JVal
  | jbool : Bool → JVal
  | jnum : Int → JVal
  | jstr : String → JVal
  | jobj : JFields → JVal
/-- The field list of a JSON object, in key insertion order. -/
inductive JFields where
  | fnil : JFields
  | fcons : String → JVal → JFields → JFields
end

/-- Key lookup on a JS object literal (first matching key; JS object keys
are unique). -/
def fieldLookup : JFields → String → Option JVal
  | JFields.fnil, _ => none
  | JFields.fcons k v t, a => if k = a then some v else fieldLookup t a

/-- Character class `[a-z,0-9-_]` of `basicFqdnRegex` with the `i` flag:
ASCII letters of either case, digits, and the three literal characters of
the class — the comma, the hyphen and the underscore.  (The comma is part
of the class as written in the source: `[a-z,0-9-_]`.) -/
def isLabelChar (c : Char) : Bool :=
  c.isAlpha || c.isDigit || c == ',' || c == '-' || c == '_'

/-- Splits a character list at every dot; dots are separators, so `n` dots
produce `n + 1` (possibly empty) parts. -/
def splitDots : List Char → List (List Char)
  | [] => [[]]
  | c :: t =>
      if c = '.' then [] :: splitDots t
      else
        match splitDots t with
        | [] => [[c]]
        | h :: r => (c :: h) :: r

/-- Embedding of `basicFqdnRegex = /^([a-z,0-9-_]+\.)+[a-z,0-9-_]+$/i`
applied to a whole string: the string must consist of two or more
dot-separated parts, each nonempty and made only of class characters
(equivalently: one or more `label.` groups followed by a final label). -/
def fqdnMatch (s : String) : Bool :=
  let parts := splitDots s.toList
  decide (2 ≤ parts.length) && parts.all (fun p => (!p.isEmpty) && p.all isLabelChar)

/-- Embedding of the `isRequest` type guard of dnsfeedsrv.ts: the node has
an `fqdn` property whose value matches `basicFqdnRegex`, in which case the
matched FQDN string is returned.  The regex only ever matches a string
valued property here: `RegExp.exec` coerces a non-string argument with
`String()`, and no JSON non-string value can coerce to a match — integer
numbers, `true`, `false` and `null` coerce to dot-free strings and objects
coerce to `"[object Object]"`, while the pattern requires at least one dot
and admits no space or bracket. -/
def requestFqdn (v : JVal) : Option String :=
  match v with
  | JVal.jobj fs =>
      match fieldLookup fs "fqdn" with
      | some (JVal.jstr s) => if fqdnMatch s then some s else none
      | _ => none
  | _ => none

/-- Boolean form of the `isRequest` type guard. -/
def isRequest (v : JVal) : Bool :=
  (requestFqdn v).isSome

/-- Joins parts with a literal dot between consecutive parts; the inverse
of `splitDots`. -/
def joinDots : List (List Char) → List Char
  | [] => []
  | [l] => l
  | l :: m :: r => l ++ '.' :: joinDots (m :: r)

/-- The claim's reading of the FQDN pattern, parameterised by the label
character set: the string is `l1.l2. ... .lk` with `k ≥ 2` nonempty labels
drawn from the allowed set. -/
def specPattern (allowed : Char → Bool) (s : String) : Prop :=
  ∃ ls : List (List Char), 2 ≤ ls.length ∧
    (∀ l ∈ ls, l ≠ [] ∧ ∀ c ∈ l, allowed c = true) ∧
    s.toList = joinDots ls

/-- The label character set asserted by claim C7: letters, digits, hyphen
and underscore only (no comma). -/
def claimLabelChar (c : Char) : Bool :=
  c.isAlpha || c.isDigit || c == '-' || c == '_'

theorem splitDots_ne_nil (l : List Char) : splitDots l ≠ [] := by
  cases l with
  | nil => simp [splitDots]
  | cons c t =>
      by_cases h : c = '.'
      · simp [splitDots, h]
      · simp only [splitDots, if_neg h]
        cases splitDots t <;> simp

theorem joinDots_cons_cons (l : List Char) (m : List Char) (r : List (List Char)) :
    joinDots (l :: m :: r) = l ++ '.' :: joinDots (m :: r) := rfl

theorem joinDots_splitDots (l : List Char) : joinDots (splitDots l) = l := by
  induction l with
  | nil => rfl
  | cons c t ih =>
      by_cases h : c = '.'
      · subst h
        simp only [splitDots, if_pos rfl]
        obtain ⟨m, r, hmr⟩ : ∃ m r, splitDots t = m :: r := by
          cases hs : splitDots t with
          | nil => exact absurd hs (splitDots_ne_nil t)
          | cons m r => exact ⟨m, r, rfl⟩
        rw [hmr]
        rw [hmr] at ih
        simp [joinDots_cons_cons, ih]
      · simp only [splitDots, if_neg h]
        obtain ⟨m, r, hmr⟩ : ∃ m r, splitDots t = m :: r := by
          cases hs : splitDots t with
          | nil => exact absurd hs (splitDots_ne_nil t)
          | cons m r => exact ⟨m, r, rfl⟩
        rw [hmr]
        rw [hmr] at ih
        cases r with
        | nil => simpa [joinDots] using ih
        | cons m2 r2 =>
            rw [joinDots_cons_cons]
            rw [joinDots_cons_cons] at ih
            simp [ih]

theorem splitDots_dotfree (l : List Char) (h : '.' ∉ l) : splitDots l = [l] := by
  induction l with
  | nil => rfl
  | cons c t ih =>
      have hc : c ≠ '.' := fun hc => h (by simp [hc])
      have ht : '.' ∉ t := fun hm => h (by simp [hm])
      simp [splitDots, hc, ih ht]

theorem splitDots_append_dot (l rest : List Char) (h : '.' ∉ l) :
    splitDots (l ++ '.' :: rest) = l :: splitDots rest := by
  induction l with
  | nil => simp [splitDots]
  | cons c t ih =>
      have hc : c ≠ '.' := fun hc => h (by simp [hc])
      have ht : '.' ∉ t := fun hm => h (by simp [hm])
      simp [splitDots, hc, ih ht]

theorem splitDots_joinDots (ls : List (List Char)) (hne : ls ≠ [])
    (hdot : ∀ l ∈ ls, '.' ∉ l) : splitDots (joinDots ls) = ls := by
  induction ls with
  | nil => exact absurd rfl hne
  | cons l r ih =>
      cases r with
      | nil =>
          simp only [joinDots]
          exact splitDots_dotfree l (hdot l (by simp))
      | cons m r2 =>
          rw [joinDots_cons_cons]
          rw [splitDots_append_dot _ _ (hdot l (by simp))]
          rw [ih (by simp) (fun q hq => hdot q (by simp [hq]))]

theorem mem_joinDots (ls : List (List Char)) (c : Char) (h : c ∈ joinDots ls) :
    (∃ l ∈ ls, c ∈ l) ∨ c = '.' := by
  induction ls with
  | nil => simp [joinDots] at h
  | cons l r ih =>
      cases r with
      | nil =>
          simp only [joinDots] at h
          exact Or.inl ⟨l, by simp, h⟩
      | cons m r2 =>
          rw [joinDots_cons_cons] at h
          rcases List.mem_append.mp h with h | h
          · exact Or.inl ⟨l, by simp, h⟩
          · rcases List.mem_cons.mp h with h | h
            · exact Or.inr h
            · rcases ih h with ⟨q, hq, hc⟩ | h
              · exact Or.inl ⟨q, by simp [hq], hc⟩
              · exact Or.inr h

/-- Characterisation of `fqdnMatch` in terms of the label decomposition. -/
theorem fqdnMatch_iff (s : String) :
    fqdnMatch s = true ↔ specPattern isLabelChar s := by
  constructor
  · intro h
    simp only [fqdnMatch, Bool.and_eq_true, decide_eq_true_eq, List.all_eq_true] at h
    obtain ⟨hlen, hall⟩ := h
    refine ⟨splitDots s.toList, hlen, ?_, (joinDots_splitDots s.toList).symm⟩
    intro l hl
    have hprops := hall l hl
    simp only [Bool.and_eq_true, Bool.not_eq_eq_eq_not, Bool.not_true, List.all_eq_true] at hprops
    refine ⟨?_, hprops.2⟩
    intro hemp
    rw [hemp] at hprops
    simp [List.isEmpty] at hprops
  · rintro ⟨ls, hlen, hlab, hjoin⟩
    have hdot : ∀ l ∈ ls, '.' ∉ l := by
      intro l hl hc
      have := (hlab l hl).2 '.' hc
      simp [isLabelChar] at this
    have hne : ls ≠ [] := by
      intro h
      rw [h] at hlen
      simp at hlen
    have hsplit : splitDots s.toList = ls := by
      rw [hjoin]
      exact splitDots_joinDots ls hne hdot
    simp only [fqdnMatch, Bool.and_eq_true, decide_eq_true_eq, List.all_eq_true, hsplit]
    refine ⟨hlen, ?_⟩
    intro l hl
    obtain ⟨hlne, hlc⟩ := hlab l hl
    simp only [Bool.and_eq_true, Bool.not_eq_eq_eq_not, Bool.not_true, List.all_eq_true]
    refine ⟨?_, hlc⟩
    cases l with
    | nil => exact absurd rfl hlne
    | cons a b => simp [List.isEmpty]

theorem specPattern_chars (allowed : Char → Bool) (s : String) (h : specPattern allowed s)
    (c : Char) (hc : c ∈ s.toList) : allowed c = true ∨ c = '.' := by
  obtain ⟨ls, _, hlab, hjoin⟩ := h
  rw [hjoin] at hc
  rcases mem_joinDots ls c hc with ⟨l, hl, hcl⟩ | h
  · exact Or.inl ((hlab l hl).2 c hcl)
  · exact Or.inr h

/-- Claim C7 counterexample: the node `{fqdn: "a,b.c"}` IS classified as a
Request by `isRequest` (the comma sits inside the regex character class
`[a-z,0-9-_]`), yet `"a,b.c"` contains a character — the comma — outside
the claim's letters/digits/hyphen/underscore label set, so by the claim it
would not be a Request. -/
theorem isRequest_comma_counterexample :
    isRequest (JVal.jobj (JFields.fcons "fqdn" (JVal.jstr "a,b.c") JFields.fnil)) = true ∧
    ¬ specPattern claimLabelChar "a,b.c" := by
  constructor
  · decide
  · intro h
    have hcm : ',' ∈ "a,b.c".toList := by decide
    rcases specPattern_chars claimLabelChar "a,b.c" h ',' hcm with hall | hdot
    · simp [claimLabelChar] at hall
    · simp at hdot

/-- Claim C7 (amended): a node is classified as a Request leaf exactly when
it is an object with an `fqdn` property whose string value matches the FQDN
pattern: one or more dot-terminated labels followed by a final label,
case-insensitive, where labels consist only of letters, digits, hyphen,
underscore and comma (the comma belongs to the character class
`[a-z,0-9-_]` as written in `basicFqdnRegex`); any string containing a
character outside that set is not a Request and the node is passed through
unchanged. -/
theorem isRequest_iff_amended (v : JVal) :
    isRequest v = true ↔
      ∃ fs s, v = JVal.jobj fs ∧ fieldLookup fs "fqdn" = some (JVal.jstr s) ∧
        specPattern isLabelChar s := by
  constructor
  · intro h
    simp only [isRequest, Option.isSome_iff_exists] at h
    obtain ⟨s, hs⟩ := h
    cases v with
    | jobj fs =>
        simp only [requestFqdn] at hs
        cases hf : fieldLookup fs "fqdn" with
        | none => rw [hf] at hs; cases hs
        | some w =>
            rw [hf] at hs
            cases w with
            | jstr s2 =>
                by_cases hm : fqdnMatch s2 = true
                · exact ⟨fs, s2, rfl, hf, (fqdnMatch_iff s2).mp hm⟩
                · simp [hm] at hs
            | jnull => cases hs
            | jbool b => cases hs
            | jnum n => cases hs
            | jobj g => cases hs
    | jnull => cases hs
    | jbool b => cases hs
    | jnum n => cases hs
    | jstr s2 => cases hs
  · rintro ⟨fs, s, rfl, hf, hp⟩
    simp [isRequest, requestFqdn, hf, (fqdnMatch_iff s).mpr hp]

/-- Result values of the walk: a scalar passed through unchanged, the
`Response` substituted for a Request leaf, or a rewritten object node. -/
inductive RVal where
  | plain : JVal → RVal
  | res : Response → RVal
  | robj : List (String × RVal) → RVal

mutual
/-- Embedding of `fqdnService.drillDown` (dnsfeedsrv.ts): a Request node is
replaced by the result of `resolveDns`, any other object recurses into
every key and rewrites the key's value with the recursive result, and
scalars pass through unchanged (`isRequest` can only hold of an object
node, since only objects carry properties).  Sibling sub-resolutions are
joined by `Promise.all`; they are threaded here in key order, which fixes
one interleaving of the concurrent buffer/store effects (the properties
proved below are insensitive to sibling completion order). -/
def drillDown (env : ResolveEnv) (span now : Int) : JVal → SvcState → RVal × SvcState
  | JVal.jobj fs, st =>
      match requestFqdn (JVal.jobj fs) with
      | some f => (RVal.res (resolveDns env f span now st).1, (resolveDns env f span now st).2)
      | none => (RVal.robj (drillFields env span now fs st).1, (drillFields env span now fs st).2)
  | JVal.jnull, st => (RVal.plain JVal.jnull, st)
  | JVal.jbool b, st => (RVal.plain (JVal.jbool b), st)
  | JVal.jnum n, st => (RVal.plain (JVal.jnum n), st)
  | JVal.jstr s, st => (RVal.plain (JVal.jstr s), st)
/-- Embedding of the `for (let k in arg)` loop of `drillDown` with its
`arg[k] = r` rewrites. -/
def drillFields (env : ResolveEnv) (span now : Int) : JFields → SvcState → List (String × RVal) × SvcState
  | JFields.fnil, st => ([], st)
  | JFields.fcons k v t, st =>
      ((k, (drillDown env span now v st).1) ::
        (drillFields env span now t (drillDown env span now v st).2).1,
       (drillFields env span now t (drillDown env span now v st).2).2)
end

theorem drillDown_request (env : ResolveEnv) (span now : Int) (v : JVal) (st : SvcState)
    (f : String) (h : requestFqdn v = some f) :
    drillDown env span now v st =
      (RVal.res (resolveDns env f span now st).1, (resolveDns env f span now st).2) := by
  cases v with
  | jobj fs => rw [drillDown, h]
  | jnull => simp [requestFqdn] at h
  | jbool b => simp [requestFqdn] at h
  | jnum n => simp [requestFqdn] at h
  | jstr s => simp [requestFqdn] at h

theorem drillDown_nonreq_obj (env : ResolveEnv) (span now : Int) (fs : JFields) (st : SvcState)
    (h : requestFqdn (JVal.jobj fs) = none) :
    drillDown env span now (JVal.jobj fs) st =
      (RVal.robj (drillFields env span now fs st).1, (drillFields env span now fs st).2) := by
  rw [drillDown, h]

theorem drillFields_nil (env : ResolveEnv) (span now : Int) (st : SvcState) :
    drillFields env span now JFields.fnil st = ([], st) := by
  rw [drillFields]

theorem drillFields_cons (env : ResolveEnv) (span now : Int) (k : String) (v : JVal)
    (t : JFields) (st : SvcState) :
    drillFields env span now (JFields.fcons k v t) st =
      ((k, (drillDown env span now v st).1) ::
        (drillFields env span now t (drillDown env span now v st).2).1,
       (drillFields env span now t (drillDown env span now v st).2).2) := by
  rw [drillFields]

/-- Claim C9: an object node that has an `fqdn` property whose string value
matches the FQDN pattern is treated as a Request regardless of any
additional properties `fs` carries, and the entire node — every sibling key
included — is replaced by the `resolveDns` result: the output depends only
on the matched FQDN string and the incoming state, and the extra properties
are discarded from the transformed document. -/
theorem request_node_replaced (env : ResolveEnv) (span now : Int) (fs : JFields)
    (st : SvcState) (s : String)
    (hf : fieldLookup fs "fqdn" = some (JVal.jstr s)) (hm : fqdnMatch s = true) :
    drillDown env span now (JVal.jobj fs) st =
      (RVal.res (resolveDns env s span now st).1, (resolveDns env s span now st).2) := by
  have hreq : requestFqdn (JVal.jobj fs) = some s := by
    simp [requestFqdn, hf, hm]
  exact drillDown_request env span now _ st s hreq

/-- A Request leaf carrying an extra sibling property. -/
def exFields : JFields :=
  JFields.fcons "fqdn" (JVal.jstr "www.example.com")
    (JFields.fcons "note" (JVal.jstr "static") JFields.fnil)

/-- Concrete instantiation of `request_node_replaced`: the leaf
`{fqdn: "www.example.com", note: "static"}` is replaced wholesale by the
resolution result; the "note" property does not survive. -/
theorem request_node_replaced_witness :
    fieldLookup exFields "fqdn" = some (JVal.jstr "www.example.com") ∧
    drillDown envEx 86400 1000 (JVal.jobj exFields) stEx =
      (RVal.res (resolveDns envEx "www.example.com" 86400 1000 stEx).1,
       (resolveDns envEx "www.example.com" 86400 1000 stEx).2) :=
  ⟨rfl, request_node_replaced envEx 86400 1000 exFields stEx "www.example.com" rfl (by decide)⟩

theorem resolveDns_buf4 (env : ResolveEnv) (f : String) (span now : Int) (st : SvcState) :
    (resolveDns env f span now st).2.buf4.getD [] =
      st.buf4.getD [] ++ (resolveDns env f span now st).1.ipv4.getD [] := by
  by_cases h : 0 < (validEntries (postEntry env f span now st).ipv4 span now).length
  · simp [resolveDns, h]
  · simp [resolveDns, h]

/-- A Request leaf node `{fqdn: f}`. -/
def reqLeaf (f : String) : JVal :=
  JVal.jobj (JFields.fcons "fqdn" (JVal.jstr f) JFields.fnil)

/-- A configuration tree with two Request leaves. -/
def twoLeafCfg (f g : String) : JVal :=
  JVal.jobj (JFields.fcons "A" (reqLeaf f) (JFields.fcons "B" (reqLeaf g) JFields.fnil))

/-- Claim C10: the flattened response buffer is built by plain
concatenation of each Request leaf's valid-address list with no
deduplication: whenever an address is in the ipv4 response of both Request
leaves of one pass (the same FQDN twice, or two FQDNs sharing an address),
it occurs at least twice in the flattened ipv4 feed. -/
theorem response_buffer_duplicates (env : ResolveEnv) (span now : Int) (st : SvcState)
    (f g a : String) (hf : fqdnMatch f = true) (hg : fqdnMatch g = true)
    (h1 : a ∈ (resolveDns env f span now st).1.ipv4.getD [])
    (h2 : a ∈ (resolveDns env g span now (resolveDns env f span now st).2).1.ipv4.getD []) :
    2 ≤ countOcc a ((drillDown env span now (twoLeafCfg f g) st).2.buf4.getD []) := by
  have hreqf : requestFqdn (reqLeaf f) = some f := by
    simp [reqLeaf, requestFqdn, fieldLookup, hf]
  have hreqg : requestFqdn (reqLeaf g) = some g := by
    simp [reqLeaf, requestFqdn, fieldLookup, hg]
  have houter : requestFqdn (twoLeafCfg f g) = none := rfl
  have hwalk : (drillDown env span now (twoLeafCfg f g) st).2 =
      (resolveDns env g span now (resolveDns env f span now st).2).2 := by
    rw [show twoLeafCfg f g =
        JVal.jobj (JFields.fcons "A" (reqLeaf f) (JFields.fcons "B" (reqLeaf g) JFields.fnil))
      from rfl]
    rw [drillDown_nonreq_obj env span now _ st houter]
    rw [drillFields_cons]
    rw [drillDown_request env span now _ st f hreqf]
    rw [drillFields_cons]
    rw [drillDown_request env span now _ _ g hreqg]
    rw [drillFields_nil]
  rw [hwalk]
  rw [resolveDns_buf4 env g span now]
  rw [resolveDns_buf4 env f span now st]
  rw [countOcc_append, countOcc_append]
  have c1 := one_le_countOcc_of_mem a _ h1
  have c2 := one_le_countOcc_of_mem a _ h2
  omega

/-- Concrete instantiation of `response_buffer_duplicates`: the same FQDN
appears in two Request leaves; its single IPv4 address ends up twice in the
flattened ipv4 buffer. -/
theorem response_buffer_duplicates_witness :
    ("10.0.0.1" ∈ (resolveDns envEx "www.example.com" 86400 1000 stEx).1.ipv4.getD []) ∧
    2 ≤ countOcc "10.0.0.1"
        ((drillDown envEx 86400 1000
          (twoLeafCfg "www.example.com" "www.example.com") stEx).2.buf4.getD []) :=
  ⟨by decide,
   response_buffer_duplicates envEx 86400 1000 stEx "www.example.com" "www.example.com"
     "10.0.0.1" (by decide) (by decide) (by decide) (by decide)⟩

/-!
Heap model for claim C6.  `fqdnService.process` runs
`JSON.parse(JSON.stringify(this.serviceConfig))` and walks the copy, and
`drillDown` rewrites nodes in place (`arg[k] = r`).  To state that the
original template object graph is untouched, object nodes live in an
explicit heap addressed by `Nat`: the original template occupies addresses
below some bound `n`, the deep copy is allocated at fresh addresses from
`n` upwards, and the walk's in-place writes are heap updates.  A resolved
Request leaf is installed into its parent slot as an inline value (it is a
freshly built response object that is never mutated afterwards).
-/

/-- A slot of an object node: a pointer to another heap node, or an inline
value installed by the walk (`arg[k] = response`). -/
inductive HChild where
  | ref : Nat → HChild
  | leafv : JVal → HChild

/-- A heap node: a scalar, or an object with named slots. -/
inductive HNode where
  | scal : JVal → HNode
  | hobj : List (String × HChild) → HNode

/-- The heap: association list from addresses to nodes. -/
abbrev Heap := List (Nat × HNode)

/-- Heap read. -/
def heapGet (h : Heap) (a : Nat) : Option HNode :=
  alookup a h

/-- Heap write: in-place update of the node stored at an existing
address. -/
def heapSet (h : Heap) (a : Nat) (nd : HNode) : Heap :=
  h.map (fun p => if p.1 = a then (a, nd) else p)

/-- Addresses referenced by a slot. -/
def childRefs : HChild → List Nat
  | HChild.ref a => [a]
  | HChild.leafv _ => []

/-- Addresses referenced by a node. -/
def nodeRefs : HNode → List Nat
  | HNode.scal _ => []
  | HNode.hobj fs => fs.foldr (fun kc acc => childRefs kc.2 ++ acc) []

mutual
/-- Allocation of the structural deep copy produced by
`JSON.parse(JSON.stringify(v))`: fresh nodes for `v` are laid out starting
at address `n`; returns the root address, the next free address, and the
new heap entries (which reference only fresh addresses — the copy shares
nothing with any pre-existing node). -/
def copyVal : JVal → Nat → Nat × Nat × Heap
  | JVal.jobj fs, n =>
      (n, (copyFields fs (n + 1)).2.1,
       (n, HNode.hobj (copyFields fs (n + 1)).1) :: (copyFields fs (n + 1)).2.2)
  | JVal.jnull, n => (n, n + 1, [(n, HNode.scal JVal.jnull)])
  | JVal.jbool b, n => (n, n + 1, [(n, HNode.scal (JVal.jbool b))])
  | JVal.jnum m, n => (n, n + 1, [(n, HNode.scal (JVal.jnum m))])
  | JVal.jstr s, n => (n, n + 1, [(n, HNode.scal (JVal.jstr s))])
/-- Copies a field list, allocating each value in sequence. -/
def copyFields : JFields → Nat → List (String × HChild) × Nat × Heap
  | JFields.fnil, n => ([], n, [])
  | JFields.fcons k v t, n =>
      ((k, HChild.ref (copyVal v n).1) :: (copyFields t (copyVal v n).2.1).1,
       (copyFields t (copyVal v n).2.1).2.1,
       (copyVal v n).2.2 ++ (copyFields t (copyVal v n).2.1).2.2)
end

/-- The FQDN of a Request child during the heap walk, dereferencing the
`fqdn` slot (the copy stores the fqdn string as a referenced scalar
node). -/
def requestFqdnH (h : Heap) (c : Nat) : Option String :=
  match heapGet h c with
  | some (HNode.hobj gs) =>
      match alookup "fqdn" gs with
      | some (HChild.ref a) =>
          match heapGet h a with
          | some (HNode.scal (JVal.jstr s)) => if fqdnMatch s then some s else none
          | _ => none
      | some (HChild.leafv (JVal.jstr s)) => if fqdnMatch s then some s else none
      | _ => none
  | _ => none

/-- One level of in-place rewriting of an object node's slots: every child
that is a Request leaf is overwritten with the inlined resolution result
(`arg[k] = response`); all other slots are kept. -/
def rewriteSlots (h : Heap) (resolve : String → JVal) (fs : List (String × HChild)) :
    List (String × HChild) :=
  fs.map (fun kc =>
    match kc.2 with
    | HChild.ref c =>
        match requestFqdnH h c with
        | some f => (kc.1, HChild.leafv (resolve f))
        | none => kc
    | HChild.leafv w => (kc.1, HChild.leafv w))

mutual
/-- The heap-level walk of `drillDown` on the copy: for an object node,
each Request child slot is overwritten in the parent (`arg[k] = response`,
with the response inlined), then the walk recurses into the remaining
child references.  `fuel` bounds the recursion depth (the copy is a finite
tree, so any fuel at least its depth is enough; the frame theorem holds
for every fuel). -/
def drillH : Nat → (String → JVal) → Heap → Nat → Heap
  | 0, _, h, _ => h
  | fuel + 1, resolve, h, r =>
      match heapGet h r with
      | some (HNode.hobj fs) =>
          drillChildren fuel resolve (rewriteSlots h resolve fs)
            (heapSet h r (HNode.hobj (rewriteSlots h resolve fs)))
      | _ => h
termination_by fuel _ _ _ => (fuel, 0)
/-- Walks the remaining child references of a rewritten field list. -/
def drillChildren (fuel : Nat) (resolve : String → JVal) :
    List (String × HChild) → Heap → Heap
  | [], h => h
  | kc :: t, h =>
      match kc.2 with
      | HChild.ref c => drillChildren fuel resolve t (drillH fuel resolve h c)
      | HChild.leafv _ => drillChildren fuel resolve t h
termination_by l _ => (fuel, l.length + 1)
end

/-- Embedding of `fqdnService.process` at the heap level: deep-copy the
template value `v` into fresh addresses from `n` on, then walk the copy
(if the copied root is itself a Request, `drillDown` just returns the
resolution result and the heap is untouched). -/
def processH (fuel : Nat) (resolve : String → JVal) (h0 : Heap) (v : JVal) (n : Nat) : Heap :=
  match requestFqdnH (h0 ++ (copyVal v n).2.2) (copyVal v n).1 with
  | some _ => h0 ++ (copyVal v n).2.2
  | none => drillH fuel resolve (h0 ++ (copyVal v n).2.2) (copyVal v n).1


theorem copyVal_fst (v : JVal) (n : Nat) : (copyVal v n).1 = n := by
  cases v <;> simp [copyVal]

theorem mem_nodeRefs_hobj (fs : List (String × HChild)) (c : Nat) :
    c ∈ nodeRefs (HNode.hobj fs) ↔ ∃ kc ∈ fs, c ∈ childRefs kc.2 := by
  induction fs with
  | nil => simp [nodeRefs]
  | cons kc t ih =>
      simp only [nodeRefs, List.foldr_cons, List.mem_append] at *
      constructor
      · rintro (h | h)
        · exact ⟨kc, by simp, h⟩
        · obtain ⟨q, hq, hc⟩ := ih.mp h
          exact ⟨q, by simp [hq], hc⟩
      · rintro ⟨q, hq, hc⟩
        rcases List.mem_cons.mp hq with rfl | hq
        · exact Or.inl hc
        · exact Or.inr (ih.mpr ⟨q, hq, hc⟩)

mutual
theorem copyVal_bounds (v : JVal) (n : Nat) :
    n ≤ (copyVal v n).2.1 ∧
    ∀ p ∈ (copyVal v n).2.2, n ≤ p.1 ∧ ∀ c ∈ nodeRefs p.2, n ≤ c := by
  cases v with
  | jobj fs =>
      have hf := copyFields_bounds fs (n + 1)
      constructor
      · simp only [copyVal]
        have h1 := hf.1
        omega
      · simp only [copyVal]
        intro p hp
        rcases List.mem_cons.mp hp with rfl | hp
        · refine ⟨le_refl n, ?_⟩
          intro c hc
          obtain ⟨kc, hkc, hcr⟩ := (mem_nodeRefs_hobj _ c).mp hc
          have := hf.2.2 kc hkc c hcr
          omega
        · have := hf.2.1 p hp
          exact ⟨by omega, fun c hc => by have h2 := this.2 c hc; omega⟩
  | jnull =>
      constructor
      · simp [copyVal]
      · simp only [copyVal, List.mem_singleton]
        intro p hp
        subst hp
        simp [nodeRefs]
  | jbool b =>
      constructor
      · simp [copyVal]
      · simp only [copyVal, List.mem_singleton]
        intro p hp
        subst hp
        simp [nodeRefs]
  | jnum m =>
      constructor
      · simp [copyVal]
      · simp only [copyVal, List.mem_singleton]
        intro p hp
        subst hp
        simp [nodeRefs]
  | jstr s =>
      constructor
      · simp [copyVal]
      · simp only [copyVal, List.mem_singleton]
        intro p hp
        subst hp
        simp [nodeRefs]

theorem copyFields_bounds (fs : JFields) (n : Nat) :
    n ≤ (copyFields fs n).2.1 ∧
    (∀ p ∈ (copyFields fs n).2.2, n ≤ p.1 ∧ ∀ c ∈ nodeRefs p.2, n ≤ c) ∧
    ∀ kc ∈ (copyFields fs n).1, ∀ c ∈ childRefs kc.2, n ≤ c := by
  cases fs with
  | fnil =>
      refine ⟨?_, ?_, ?_⟩
      · simp [copyFields]
      · simp only [copyFields]
        intro p hp
        simp at hp
      · simp only [copyFields]
        intro kc hkc
        simp at hkc
  | fcons k v t =>
      have hv := copyVal_bounds v n
      have ht := copyFields_bounds t (copyVal v n).2.1
      refine ⟨?_, ?_, ?_⟩
      · simp only [copyFields]
        have h1 := hv.1
        have h2 := ht.1
        omega
      · simp only [copyFields]
        intro p hp
        rcases List.mem_append.mp hp with hp | hp
        · exact hv.2 p hp
        · have h3 := ht.2.1 p hp
          have h1 := hv.1
          exact ⟨by omega, fun c hc => by have h4 := h3.2 c hc; omega⟩
      · simp only [copyFields]
        intro kc hkc
        rcases List.mem_cons.mp hkc with rfl | hkc
        · intro c hc
          simp only [childRefs, List.mem_singleton] at hc
          subst hc
          rw [copyVal_fst]
        · intro c hc
          have h5 := ht.2.2 kc hkc c hc
          have h1 := hv.1
          omega
end

theorem mem_heapSet (h : Heap) (r : Nat) (nd : HNode) (p : Nat × HNode)
    (hp : p ∈ heapSet h r nd) : p = (r, nd) ∨ p ∈ h := by
  simp only [heapSet, List.mem_map] at hp
  obtain ⟨q, hq, hpq⟩ := hp
  by_cases h1 : q.1 = r
  · left
    rw [← hpq]
    simp [h1]
  · right
    rw [← hpq]
    simp only [if_neg h1]
    exact hq

theorem heapGet_heapSet_ne (h : Heap) (r : Nat) (nd : HNode) (a : Nat) (hne : a ≠ r) :
    heapGet (heapSet h r nd) a = heapGet h a := by
  induction h with
  | nil => rfl
  | cons p t ih =>
      obtain ⟨k, w⟩ := p
      simp only [heapSet, List.map_cons]
      by_cases h1 : k = r
      · subst h1
        simp only [if_pos rfl]
        have h2 : k ≠ a := fun h => hne h.symm
        simp only [heapGet, alookup, if_neg h2]
        exact ih
      · simp only [if_neg h1]
        simp only [heapGet, alookup]
        by_cases h2 : k = a
        · simp [h2]
        · simp only [if_neg h2]
          exact ih

/-- Every node at an address at or above the bound references only
addresses at or above the bound (the copy region is closed: it never
points back into the original template's region). -/
def heapClosedAbove (h : Heap) (n : Nat) : Prop :=
  ∀ p ∈ h, n ≤ p.1 → ∀ c ∈ nodeRefs p.2, n ≤ c

theorem heapClosedAbove_heapSet (h : Heap) (n r : Nat) (nd : HNode)
    (hc : heapClosedAbove h n) (hnd : ∀ c ∈ nodeRefs nd, n ≤ c) :
    heapClosedAbove (heapSet h r nd) n := by
  intro p hp hge c hcr
  rcases mem_heapSet h r nd p hp with rfl | hmem
  · exact hnd c hcr
  · exact hc p hmem hge c hcr

theorem rewriteSlots_refs (h : Heap) (resolve : String → JVal)
    (fs : List (String × HChild)) (kc2 : String × HChild)
    (hm : kc2 ∈ rewriteSlots h resolve fs) (c : Nat) (hc : c ∈ childRefs kc2.2) :
    ∃ kc ∈ fs, c ∈ childRefs kc.2 := by
  simp only [rewriteSlots, List.mem_map] at hm
  obtain ⟨kc, hkc, hmap⟩ := hm
  refine ⟨kc, hkc, ?_⟩
  rcases hch : kc.2 with c0 | w
  · simp only [hch] at hmap
    rcases hreq : requestFqdnH h c0 with _ | f
    · simp only [hreq] at hmap
      rw [← hmap, hch] at hc
      exact hc
    · simp only [hreq] at hmap
      rw [← hmap] at hc
      simp [childRefs] at hc
  · simp only [hch] at hmap
    rw [← hmap] at hc
    simp [childRefs] at hc

/-- Frame property of `drillH` at a given fuel: starting from a heap whose
high region (`≥ n`) is closed and a root inside it, the walk keeps the high
region closed and never touches an address below `n`. -/
def DrillHFrame (fuel : Nat) : Prop :=
  ∀ (resolve : String → JVal) (h : Heap) (r n : Nat),
    heapClosedAbove h n → n ≤ r →
    heapClosedAbove (drillH fuel resolve h r) n ∧
      ∀ a, a < n → heapGet (drillH fuel resolve h r) a = heapGet h a

/-- Frame property of `drillChildren` at a given fuel. -/
def DrillChildrenFrame (fuel : Nat) : Prop :=
  ∀ (resolve : String → JVal) (l : List (String × HChild)) (h : Heap) (n : Nat),
    heapClosedAbove h n → (∀ kc ∈ l, ∀ c ∈ childRefs kc.2, n ≤ c) →
    heapClosedAbove (drillChildren fuel resolve l h) n ∧
      ∀ a, a < n → heapGet (drillChildren fuel resolve l h) a = heapGet h a

theorem drillChildren_frame_of (fuel : Nat) (hP : DrillHFrame fuel) :
    DrillChildrenFrame fuel := by
  intro resolve l
  induction l with
  | nil =>
      intro h n hc _
      constructor
      · rw [drillChildren]
        exact hc
      · intro a _
        rw [drillChildren]
  | cons kc t ih =>
      intro h n hc hl
      rcases hkc : kc.2 with c | w
      · have hcn : n ≤ c := hl kc (by simp) c (by rw [hkc]; simp [childRefs])
        have h1 := hP resolve h c n hc hcn
        have h2 := ih (drillH fuel resolve h c) n h1.1 (fun q hq => hl q (by simp [hq]))
        have hstep : drillChildren fuel resolve (kc :: t) h =
            drillChildren fuel resolve t (drillH fuel resolve h c) := by
          rw [drillChildren, hkc]
        rw [hstep]
        exact ⟨h2.1, fun a ha => by rw [h2.2 a ha, h1.2 a ha]⟩
      · have hstep : drillChildren fuel resolve (kc :: t) h =
            drillChildren fuel resolve t h := by
          rw [drillChildren, hkc]
        rw [hstep]
        exact ih h n hc (fun q hq => hl q (by simp [hq]))

theorem drillH_frame_step (fuel : Nat) (hQ : DrillChildrenFrame fuel) :
    DrillHFrame (fuel + 1) := by
  intro resolve h r n hc hr
  rcases hget : heapGet h r with _ | nd
  · have hstep : drillH (fuel + 1) resolve h r = h := by
      rw [drillH, hget]
    rw [hstep]
    exact ⟨hc, fun a _ => rfl⟩
  · cases nd with
    | scal v =>
        have hstep : drillH (fuel + 1) resolve h r = h := by
          rw [drillH, hget]
        rw [hstep]
        exact ⟨hc, fun a _ => rfl⟩
    | hobj fs =>
        have hstep : drillH (fuel + 1) resolve h r =
            drillChildren fuel resolve (rewriteSlots h resolve fs)
              (heapSet h r (HNode.hobj (rewriteSlots h resolve fs))) := by
          rw [drillH, hget]
        have hmem : (r, HNode.hobj fs) ∈ h := mem_of_alookup r (HNode.hobj fs) h hget
        have hfs : ∀ c ∈ nodeRefs (HNode.hobj fs), n ≤ c := hc (r, HNode.hobj fs) hmem hr
        have hrs : ∀ kc ∈ rewriteSlots h resolve fs, ∀ c ∈ childRefs kc.2, n ≤ c := by
          intro kc hkc c hcr
          obtain ⟨kc0, hkc0, hcr0⟩ := rewriteSlots_refs h resolve fs kc hkc c hcr
          exact hfs c ((mem_nodeRefs_hobj fs c).mpr ⟨kc0, hkc0, hcr0⟩)
        have hnd : ∀ c ∈ nodeRefs (HNode.hobj (rewriteSlots h resolve fs)), n ≤ c := by
          intro c hcr
          obtain ⟨kc, hkc, hcr2⟩ := (mem_nodeRefs_hobj (rewriteSlots h resolve fs) c).mp hcr
          exact hrs kc hkc c hcr2
        have hc2 := heapClosedAbove_heapSet h n r (HNode.hobj (rewriteSlots h resolve fs)) hc hnd
        have h2 := hQ resolve (rewriteSlots h resolve fs)
          (heapSet h r (HNode.hobj (rewriteSlots h resolve fs))) n hc2 hrs
        rw [hstep]
        refine ⟨h2.1, ?_⟩
        intro a ha
        rw [h2.2 a ha]
        exact heapGet_heapSet_ne h r (HNode.hobj (rewriteSlots h resolve fs)) a (by omega)

theorem drillH_frame (fuel : Nat) : DrillHFrame fuel := by
  induction fuel with
  | zero =>
      intro resolve h r n hc _
      have hstep : drillH 0 resolve h r = h := by rw [drillH]
      rw [hstep]
      exact ⟨hc, fun a _ => rfl⟩
  | succ f ih => exact drillH_frame_step f (drillChildren_frame_of f ih)

/-- Claim C6: for every stored template value `v`, heap `h0` holding the
original template graph (all its cells live at addresses below `n`), fuel
and resolver, running `processH` — deep copy at fresh addresses, then the
in-place rewriting walk — leaves every cell of the original heap exactly as
it was: each call operates on the structural deep copy, so re-running
`process` always starts from the pristine template even though the walk
rewrites nodes in place. -/
theorem process_preserves_original (fuel : Nat) (resolve : String → JVal)
    (h0 : Heap) (v : JVal) (n : Nat)
    (hb : ∀ p ∈ h0, p.1 < n) (a : Nat) (ha : a < n) :
    heapGet (processH fuel resolve h0 v n) a = heapGet h0 a := by
  have hcopy := (copyVal_bounds v n).2
  have happend : ∀ b, b < n →
      heapGet (h0 ++ (copyVal v n).2.2) b = heapGet h0 b := by
    intro b hbn
    exact alookup_append_of_forall b h0 (copyVal v n).2.2
      (fun p hp => by have := (hcopy p hp).1; omega)
  have hclosed : heapClosedAbove (h0 ++ (copyVal v n).2.2) n := by
    intro p hp hge c hcr
    rcases List.mem_append.mp hp with hp | hp
    · have := hb p hp
      omega
    · exact (hcopy p hp).2 c hcr
  rcases hreq : requestFqdnH (h0 ++ (copyVal v n).2.2) (copyVal v n).1 with _ | f
  · have hstep : processH fuel resolve h0 v n =
        drillH fuel resolve (h0 ++ (copyVal v n).2.2) (copyVal v n).1 := by
      rw [processH, hreq]
    rw [hstep]
    have hroot : n ≤ (copyVal v n).1 := by
      rw [copyVal_fst]
    have := (drillH_frame fuel resolve (h0 ++ (copyVal v n).2.2) (copyVal v n).1 n
      hclosed hroot).2 a ha
    rw [this]
    exact happend a ha
  · have hstep : processH fuel resolve h0 v n = h0 ++ (copyVal v n).2.2 := by
      rw [processH, hreq]
    rw [hstep]
    exact happend a ha

/-- Concrete instantiation of `process_preserves_original`: a heap holding
one original cell at address 0 is unchanged at address 0 after copying and
walking the template `{a: null}` at fresh addresses from 1. -/
theorem process_preserves_original_witness :
    heapGet (processH 3 (fun _ => JVal.jnull) [(0, HNode.scal (JVal.jstr "keep"))]
        (JVal.jobj (JFields.fcons "a" JVal.jnull JFields.fnil)) 1) 0 =
      heapGet [(0, HNode.scal (JVal.jstr "keep"))] 0 :=
  process_preserves_original 3 (fun _ => JVal.jnull) [(0, HNode.scal (JVal.jstr "keep"))]
    (JVal.jobj (JFields.fcons "a" JVal.jnull JFields.fnil)) 1
    (by intro p hp; rw [List.mem_singleton] at hp; subst hp; decide) 0 (by decide)
